import Mathlib

/-!
Verification of the retention-policy and orchestration logic of `btrup.py`
(a Btrfs + Borg backup tool).

Instants (`datetime`) are modelled as integers (e.g. microseconds on a naive
time axis); durations (`timedelta`) likewise.  Python's floor division of
timedeltas (`//`, rounding toward negative infinity) is `Int.fdiv`.

External commands are modelled by an `Outcome` oracle:
`Outcome.ok` is a zero exit status, `Outcome.fail` a nonzero exit status, and
`Outcome.exn` an invocation that raises an exception (e.g. a missing binary).
`subprocess.run` without `check=True` returns normally on `fail`; with
`check=True` it raises `CalledProcessError`.
-/

namespace Btrup

/-- Bucket index of an instant `dt`: Python `(dt - origin) // interval` on
timedeltas, i.e. floor division rounding toward negative infinity. -/
def bin_idx (origin interval dt : Int) : Int :=
  (dt - origin).fdiv interval

/-- One step of the Python dict update
`bins.setdefault(bin_idx, dt); bins[bin_idx] = min(bins[bin_idx], dt)`:
insert the key with value `dt` if absent, otherwise replace the value by the
minimum of the stored value and `dt`.  The dict is modelled as an association
list in insertion order. -/
def updateBin : List (Int × Int) → Int → Int → List (Int × Int)
  | [], idx, dt => [(idx, dt)]
  | (k, v) :: rest, idx, dt =>
    if k = idx then (k, min v dt) :: rest else (k, v) :: updateBin rest idx dt

/-- The `bins` dict built by the loop in `select_relevant`. -/
def binsOf (available : List Int) (origin interval : Int) : List (Int × Int) :=
  available.foldl (fun b dt => updateBin b (bin_idx origin interval dt) dt) []

/-- Python list slice `xs[-amount:]` for a nonnegative `amount`:
the whole list when `amount = 0` (since `xs[-0:] = xs[0:]`), otherwise the
last `min amount (length xs)` elements. -/
def pyTailSlice (xs : List Int) (amount : Nat) : List Int :=
  if amount = 0 then xs else xs.drop (xs.length - amount)

/-- Model of `select_relevant(available, origin, interval, amount)`:
map each instant into a bin, keep the oldest instant per bin, sort the
per-bin values ascending and return the Python slice `bins[-amount:]`. -/
def select_relevant (available : List Int) (origin interval : Int) (amount : Nat) :
    List Int :=
  let bins := binsOf available origin interval
  let sortedVals := (bins.map Prod.snd).insertionSort (· ≤ ·)
  pyTailSlice sortedVals amount

/-- Model of `grandfatherson(available, origin, keeps)`:
`keep_dts` is the union over all rules of the relevant instants, and
`prune_dts = set(available) - keep_dts`.  Python sets become `Finset Int`. -/
def grandfatherson (available : List Int) (origin : Int) (keeps : List (Int × Nat)) :
    Finset Int × Finset Int :=
  let keep_dts := keeps.foldl
    (fun acc ki => acc ∪ (select_relevant available origin ki.1 ki.2).toFinset) ∅
  (keep_dts, available.toFinset \ keep_dts)

/-- Spec-side predicate ("within each bucket, keep only the earliest instant"):
`dt` is the oldest available instant of its bucket. -/
def bucketOldest (available : List Int) (origin interval dt : Int) : Prop :=
  ∀ y ∈ available, bin_idx origin interval y = bin_idx origin interval dt → dt ≤ y

instance (available : List Int) (origin interval dt : Int) :
    Decidable (bucketOldest available origin interval dt) := by
  unfold bucketOldest; infer_instance

/-- Spec-side definition, following the specification's words: the per-bucket
representatives (the oldest instant of each non-empty bucket), sorted
ascending by instant. -/
def specRepsSorted (available : List Int) (origin interval : Int) : List Int :=
  (((available.filter (fun dt => decide (bucketOldest available origin interval dt)))).dedup).insertionSort (· ≤ ·)

/-- Spec-side definition of `selectRelevant`, following the specification's
words: "Sort the per-bucket representatives ascending by instant; return the
last `amount` of them (most recent buckets). If fewer than `amount` buckets
exist, return all of them." -/
def selectRelevantSpec (available : List Int) (origin interval : Int) (amount : Nat) :
    List Int :=
  let reps := specRepsSorted available origin interval
  if reps.length ≤ amount then reps else reps.drop (reps.length - amount)

/-- Lookup in the association list modelling the Python dict. -/
def lookupBin : List (Int × Int) → Int → Option Int
  | [], _ => none
  | (k, v) :: rest, i => if k = i then some v else lookupBin rest i

/-- Merge one instant into an optional running minimum. -/
def omin : Option Int → Int → Option Int
  | none, x => some x
  | some v, x => some (min v x)

/-- Running minimum of a list of instants, starting from an optional seed. -/
def accMin (o : Option Int) (l : List Int) : Option Int := l.foldl omin o

theorem lookupBin_updateBin (b : List (Int × Int)) (j dt k : Int) :
    lookupBin (updateBin b j dt) k =
      if k = j then omin (lookupBin b k) dt else lookupBin b k := by
  induction b with
  | nil =>
    by_cases h : k = j <;> simp [updateBin, lookupBin, h, omin]
    exact fun h2 => absurd h2.symm h
  | cons p rest ih =>
    obtain ⟨a, v⟩ := p
    by_cases haj : a = j
    · subst haj
      by_cases hk : k = a
      · subst hk; simp [updateBin, lookupBin, omin]
      · have hk2 : ¬a = k := fun h => hk h.symm
        simp [updateBin, lookupBin, hk, hk2]
    · by_cases hk : a = k
      · subst hk
        have hkj : ¬a = j := haj
        simp [updateBin, lookupBin, haj, hkj, ih]
      · simp [updateBin, lookupBin, haj, hk, ih]

theorem accMin_some_eq (l : List Int) (m : Int) :
    accMin (some m) l = some (l.foldl min m) := by
  induction l generalizing m with
  | nil => rfl
  | cons a t ih => simp [accMin, omin, List.foldl] at ih ⊢; exact ih (min m a)

theorem foldl_min_le (l : List Int) (m : Int) :
    l.foldl min m ≤ m ∧ ∀ y ∈ l, l.foldl min m ≤ y := by
  induction l generalizing m with
  | nil => simp
  | cons a t ih =>
    obtain ⟨h1, h2⟩ := ih (min m a)
    refine ⟨le_trans h1 (min_le_left m a), ?_⟩
    intro y hy
    rcases List.mem_cons.mp hy with rfl | hy
    · exact le_trans h1 (min_le_right m y)
    · exact h2 y hy

theorem foldl_min_mem (l : List Int) (m : Int) :
    l.foldl min m = m ∨ l.foldl min m ∈ l := by
  induction l generalizing m with
  | nil => simp
  | cons a t ih =>
    rcases ih (min m a) with h | h
    · rcases min_cases m a with ⟨hma, _⟩ | ⟨hma, _⟩
      · exact Or.inl (by rw [List.foldl_cons, h, hma])
      · exact Or.inr (by rw [List.foldl_cons, h, hma]; exact List.mem_cons_self a t)
    · exact Or.inr (List.mem_cons_of_mem a h)

theorem accMin_eq_some_iff (l : List Int) (v : Int) :
    accMin none l = some v ↔ v ∈ l ∧ ∀ y ∈ l, v ≤ y := by
  cases l with
  | nil => simp [accMin]
  | cons a t =>
    have hstep : accMin none (a :: t) = some (t.foldl min a) := by
      simp [accMin, omin, List.foldl]
      have := accMin_some_eq t a
      simpa [accMin] using this
    rw [hstep]
    constructor
    · rintro h
      have hv : v = t.foldl min a := by simpa using h.symm
      subst hv
      obtain ⟨h1, h2⟩ := foldl_min_le t a
      refine ⟨?_, ?_⟩
      · rcases foldl_min_mem t a with h | h
        · rw [h]; exact List.mem_cons_self a t
        · exact List.mem_cons_of_mem a h
      · intro y hy
        rcases List.mem_cons.mp hy with rfl | hy
        · exact h1
        · exact h2 y hy
    · rintro ⟨hv, hlb⟩
      obtain ⟨h1, h2⟩ := foldl_min_le t a
      have hw : t.foldl min a ≤ v := by
        rcases List.mem_cons.mp hv with rfl | hv
        · exact h1
        · exact h2 v hv
      have hvw : v ≤ t.foldl min a := by
        rcases foldl_min_mem t a with h | h
        · rw [h]; exact hlb a (List.mem_cons_self a t)
        · exact hlb _ (List.mem_cons_of_mem a h)
      rw [le_antisymm hw hvw]

theorem lookupBin_foldl (o i : Int) (l : List Int) (b : List (Int × Int)) (k : Int) :
    lookupBin (l.foldl (fun b dt => updateBin b (bin_idx o i dt) dt) b) k =
      accMin (lookupBin b k) (l.filter (fun dt => bin_idx o i dt = k)) := by
  induction l generalizing b with
  | nil => rfl
  | cons dt t ih =>
    rw [List.foldl_cons, ih]
    by_cases h : bin_idx o i dt = k
    · have hk : k = bin_idx o i dt := h.symm
      subst hk
      rw [List.filter_cons_of_pos (by simp)]
      simp [accMin, lookupBin_updateBin]
    · have hk : ¬k = bin_idx o i dt := fun hh => h hh.symm
      rw [List.filter_cons_of_neg (by simpa using h)]
      rw [lookupBin_updateBin, if_neg hk]

theorem lookupBin_binsOf (l : List Int) (o i k : Int) :
    lookupBin (binsOf l o i) k =
      accMin none (l.filter (fun dt => bin_idx o i dt = k)) :=
  lookupBin_foldl o i l [] k

theorem mem_keys_updateBin (b : List (Int × Int)) (j dt x : Int) :
    x ∈ (updateBin b j dt).map Prod.fst ↔ x ∈ b.map Prod.fst ∨ x = j := by
  induction b with
  | nil => simp [updateBin]
  | cons p rest ih =>
    obtain ⟨a, v⟩ := p
    by_cases haj : a = j
    · subst haj; simp [updateBin]; tauto
    · simp [updateBin, haj, ih]; tauto

theorem nodup_keys_updateBin (b : List (Int × Int)) (j dt : Int)
    (h : (b.map Prod.fst).Nodup) : ((updateBin b j dt).map Prod.fst).Nodup := by
  induction b with
  | nil => simp [updateBin]
  | cons p rest ih =>
    obtain ⟨a, v⟩ := p
    simp only [List.map_cons, List.nodup_cons] at h
    by_cases haj : a = j
    · subst haj; simpa [updateBin] using h
    · have h1 := ih h.2
      simp only [updateBin, if_neg haj, List.map_cons, List.nodup_cons]
      refine ⟨?_, h1⟩
      rw [mem_keys_updateBin]
      rintro (hmem | rfl)
      · exact h.1 hmem
      · exact haj rfl

theorem nodup_keys_binsOf (l : List Int) (o i : Int) :
    ((binsOf l o i).map Prod.fst).Nodup := by
  suffices h : ∀ (l : List Int) (b : List (Int × Int)), (b.map Prod.fst).Nodup →
      (((l.foldl (fun b dt => updateBin b (bin_idx o i dt) dt) b)).map Prod.fst).Nodup by
    exact h l [] (by simp)
  intro l
  induction l with
  | nil => intro b hb; simpa using hb
  | cons dt t ih =>
    intro b hb
    exact ih _ (nodup_keys_updateBin b _ dt hb)

theorem lookupBin_eq_some_of_mem (b : List (Int × Int)) (k v : Int)
    (hmem : (k, v) ∈ b) (hnd : (b.map Prod.fst).Nodup) : lookupBin b k = some v := by
  induction b with
  | nil => cases hmem
  | cons p rest ih =>
    obtain ⟨a, w⟩ := p
    simp only [List.map_cons, List.nodup_cons] at hnd
    rcases List.mem_cons.mp hmem with heq | hmem2
    · cases heq
      simp [lookupBin]
    · have hka : ¬a = k := by
        intro h
        subst h
        exact hnd.1 (List.mem_map.mpr ⟨(a, v), hmem2, rfl⟩)
      simp only [lookupBin, if_neg hka]
      exact ih hmem2 hnd.2

theorem mem_of_lookupBin_eq_some (b : List (Int × Int)) (k v : Int)
    (h : lookupBin b k = some v) : (k, v) ∈ b := by
  induction b with
  | nil => cases h
  | cons p rest ih =>
    obtain ⟨a, w⟩ := p
    by_cases hak : a = k
    · subst hak
      simp [lookupBin] at h
      subst h; exact List.mem_cons_self _ _
    · simp only [lookupBin, if_neg hak] at h
      exact List.mem_cons_of_mem _ (ih h)

theorem mem_snd_binsOf (l : List Int) (o i v : Int) :
    v ∈ (binsOf l o i).map Prod.snd ↔
      v ∈ l ∧ ∀ y ∈ l, bin_idx o i y = bin_idx o i v → v ≤ y := by
  constructor
  · intro hv
    obtain ⟨p, hp, hpv⟩ := List.mem_map.mp hv
    obtain ⟨k, w⟩ := p
    subst hpv
    have hlk : lookupBin (binsOf l o i) k = some w :=
      lookupBin_eq_some_of_mem _ _ _ hp (nodup_keys_binsOf l o i)
    rw [lookupBin_binsOf] at hlk
    obtain ⟨hmem, hlb⟩ := (accMin_eq_some_iff _ _).mp hlk
    rw [List.mem_filter] at hmem
    have hbv : bin_idx o i w = k := by simpa using hmem.2
    refine ⟨hmem.1, fun y hy hby => ?_⟩
    refine hlb y (List.mem_filter.mpr ⟨hy, ?_⟩)
    simp only [decide_eq_true_eq]
    calc bin_idx o i y = bin_idx o i w := hby
      _ = k := hbv
  · rintro ⟨hv, hlb⟩
    have hacc : accMin none (l.filter (fun dt => bin_idx o i dt = bin_idx o i v)) =
        some v := by
      rw [accMin_eq_some_iff]
      constructor
      · exact List.mem_filter.mpr ⟨hv, by simp⟩
      · intro y hy
        rw [List.mem_filter] at hy
        exact hlb y hy.1 (by simpa using hy.2)
    have hlk : lookupBin (binsOf l o i) (bin_idx o i v) = some v := by
      rw [lookupBin_binsOf]; exact hacc
    exact List.mem_map.mpr ⟨(bin_idx o i v, v), mem_of_lookupBin_eq_some _ _ _ hlk, rfl⟩

theorem fst_eq_bin_idx_of_mem_binsOf (l : List Int) (o i : Int) (p : Int × Int)
    (hp : p ∈ binsOf l o i) : p.1 = bin_idx o i p.2 := by
  obtain ⟨k, w⟩ := p
  have hlk : lookupBin (binsOf l o i) k = some w :=
    lookupBin_eq_some_of_mem _ _ _ hp (nodup_keys_binsOf l o i)
  rw [lookupBin_binsOf] at hlk
  obtain ⟨hmem, -⟩ := (accMin_eq_some_iff _ _).mp hlk
  rw [List.mem_filter] at hmem
  have hh : bin_idx o i w = k := by simpa using hmem.2
  exact hh.symm

theorem nodup_snd_binsOf (l : List Int) (o i : Int) :
    ((binsOf l o i).map Prod.snd).Nodup := by
  have hnd : (binsOf l o i).Nodup := (nodup_keys_binsOf l o i).of_map
  refine hnd.map_on ?_
  intro p hp q hq hpq
  have h1 := fst_eq_bin_idx_of_mem_binsOf l o i p hp
  have h2 := fst_eq_bin_idx_of_mem_binsOf l o i q hq
  have : p.1 = q.1 := by rw [h1, h2, hpq]
  exact Prod.ext this hpq

/-- The unsorted list of per-bucket representatives derived from the spec's
words: the available instants that are oldest in their bucket, deduplicated. -/
def specRepsRaw (available : List Int) (origin interval : Int) : List Int :=
  (available.filter (fun dt => decide (bucketOldest available origin interval dt))).dedup

theorem mem_specRepsRaw (l : List Int) (o i v : Int) :
    v ∈ specRepsRaw l o i ↔
      v ∈ l ∧ ∀ y ∈ l, bin_idx o i y = bin_idx o i v → v ≤ y := by
  simp [specRepsRaw, List.mem_dedup, List.mem_filter, bucketOldest]

theorem nodup_specRepsRaw (l : List Int) (o i : Int) : (specRepsRaw l o i).Nodup :=
  List.nodup_dedup _

theorem snd_binsOf_perm_specRepsRaw (l : List Int) (o i : Int) :
    ((binsOf l o i).map Prod.snd).Perm (specRepsRaw l o i) := by
  rw [List.perm_ext_iff_of_nodup (nodup_snd_binsOf l o i) (nodup_specRepsRaw l o i)]
  intro v
  rw [mem_snd_binsOf, mem_specRepsRaw]

theorem sorted_snd_binsOf_eq_specRepsSorted (l : List Int) (o i : Int) :
    ((binsOf l o i).map Prod.snd).insertionSort (· ≤ ·) = specRepsSorted l o i := by
  have hperm :
      List.Perm (((binsOf l o i).map Prod.snd).insertionSort (· ≤ ·))
        ((specRepsRaw l o i).insertionSort (· ≤ ·)) :=
    ((List.perm_insertionSort _ _).trans (snd_binsOf_perm_specRepsRaw l o i)).trans
      (List.perm_insertionSort _ _).symm
  exact List.eq_of_perm_of_sorted hperm
    (List.sorted_insertionSort _ _) (List.sorted_insertionSort _ _)

/-- The source implementation computes exactly the Python slice
`reps[-amount:]` of the spec-side sorted representative list. -/
theorem select_relevant_eq_slice (l : List Int) (o i : Int) (a : Nat) :
    select_relevant l o i a = pyTailSlice (specRepsSorted l o i) a := by
  rw [select_relevant, sorted_snd_binsOf_eq_specRepsSorted]

/-- For a positive amount, the source implementation agrees with the
spec-side definition of `selectRelevant`. -/
theorem select_relevant_eq_spec (l : List Int) (o i : Int) (a : Nat) (ha : 1 ≤ a) :
    select_relevant l o i a = selectRelevantSpec l o i a := by
  rw [select_relevant_eq_slice, pyTailSlice, if_neg (by omega), selectRelevantSpec]
  by_cases h : (specRepsSorted l o i).length ≤ a
  · rw [if_pos h]
    have : (specRepsSorted l o i).length - a = 0 := by omega
    rw [this, List.drop_zero]
  · rw [if_neg h]

theorem nodup_specRepsSorted (l : List Int) (o i : Int) :
    (specRepsSorted l o i).Nodup :=
  (List.perm_insertionSort _ _).nodup_iff.mpr (nodup_specRepsRaw l o i)

theorem mem_specRepsSorted (l : List Int) (o i v : Int) :
    v ∈ specRepsSorted l o i ↔
      v ∈ l ∧ ∀ y ∈ l, bin_idx o i y = bin_idx o i v → v ≤ y := by
  rw [specRepsSorted, List.mem_insertionSort]
  exact mem_specRepsRaw l o i v

theorem sorted_lt_specRepsSorted (l : List Int) (o i : Int) :
    (specRepsSorted l o i).Sorted (· < ·) := by
  have hle : (specRepsSorted l o i).Sorted (· ≤ ·) := List.sorted_insertionSort _ _
  have hnd : (specRepsSorted l o i).Nodup := nodup_specRepsSorted l o i
  exact (hle.and hnd).imp (fun h => lt_of_le_of_ne h.1 h.2)

theorem mem_drop_iff_of_sorted (a : Nat) (x : Int) :
    ∀ L : List Int, L.Sorted (· < ·) →
      (x ∈ L.drop (L.length - a) ↔
        x ∈ L ∧ (L.filter (fun y => decide (x < y))).length < a) := by
  intro L
  induction L with
  | nil => simp
  | cons z t ih =>
    intro hL
    rw [List.sorted_cons] at hL
    rcases Nat.lt_or_ge t.length a with hlen | hlen
    · have h0 : (z :: t).length - a = 0 := by simp only [List.length_cons]; omega
      rw [h0, List.drop_zero]
      constructor
      · intro hx
        refine ⟨hx, ?_⟩
        have hsub : List.Sublist ((z :: t).filter (fun y => decide (x < y))) (z :: t) :=
          List.filter_sublist _
        have hlt : ((z :: t).filter (fun y => decide (x < y))).length < (z :: t).length := by
          rcases Nat.lt_or_ge ((z :: t).filter (fun y => decide (x < y))).length
              (z :: t).length with h | h
          · exact h
          · exfalso
            have heq := hsub.eq_of_length (le_antisymm hsub.length_le h)
            have : x ∈ (z :: t).filter (fun y => decide (x < y)) := by
              rw [heq]; exact hx
            rw [List.mem_filter] at this
            simp at this

        calc ((z :: t).filter (fun y => decide (x < y))).length
            < (z :: t).length := hlt
          _ ≤ a := by simp only [List.length_cons]; omega
      · exact fun h => h.1
    · have h1 : (z :: t).length - a = (t.length - a) + 1 := by
        simp only [List.length_cons]; omega
      rw [h1, List.drop_succ_cons, ih hL.2]
      by_cases hxz : x < z
      · have hxt : x ∉ t := fun hmem => absurd (hL.1 x hmem) (by omega)
        have hxl : x ∉ z :: t := by
          intro hmem
          rcases List.mem_cons.mp hmem with rfl | hmem
          · exact absurd hxz (lt_irrefl x)
          · exact hxt hmem
        simp [hxt, hxl]
      · rw [List.filter_cons_of_neg (by simpa using hxz)]
        by_cases hxeq : x = z
        · subst hxeq
          have hxt : x ∉ t := fun hmem => absurd (hL.1 x hmem) (lt_irrefl x)
          have hfull : t.filter (fun y => decide (x < y)) = t :=
            List.filter_eq_self.mpr (fun y hy => by simpa using hL.1 y hy)
          simp [hxt, hfull]
          omega
        · have hmem_iff : x ∈ z :: t ↔ x ∈ t := by
            rw [List.mem_cons]
            exact ⟨fun h => h.resolve_left hxeq, Or.inr⟩
          rw [hmem_iff]

/-- The per-bucket representatives as a finite set. -/
def repsF (l : List Int) (o i : Int) : Finset Int := (specRepsSorted l o i).toFinset

theorem mem_repsF (l : List Int) (o i v : Int) :
    v ∈ repsF l o i ↔
      v ∈ l ∧ ∀ y ∈ l, bin_idx o i y = bin_idx o i v → v ≤ y := by
  rw [repsF, List.mem_toFinset]
  exact mem_specRepsSorted l o i v

theorem filter_card_eq_filter_length (l : List Int) (o i x : Int) :
    ((repsF l o i).filter (fun y => x < y)).card =
      ((specRepsSorted l o i).filter (fun y => decide (x < y))).length := by
  have h1 : ((specRepsSorted l o i).filter (fun y => decide (x < y))).toFinset =
      (repsF l o i).filter (fun y => x < y) := by
    rw [List.toFinset_filter, repsF]
    exact Finset.filter_congr (fun y _ => by simp)
  rw [← h1, List.card_toFinset, List.Nodup.dedup]
  exact (nodup_specRepsSorted l o i).filter _

/-- Membership characterization of `select_relevant` for a positive amount:
an instant is selected iff it is the oldest of its bucket and fewer than
`amount` bucket representatives are more recent than it. -/
theorem mem_select_relevant_iff (l : List Int) (o i : Int) (a : Nat) (ha : 1 ≤ a)
    (x : Int) :
    x ∈ select_relevant l o i a ↔
      x ∈ repsF l o i ∧ ((repsF l o i).filter (fun y => x < y)).card < a := by
  rw [select_relevant_eq_slice, pyTailSlice, if_neg (by omega)]
  rw [mem_drop_iff_of_sorted a x _ (sorted_lt_specRepsSorted l o i)]
  rw [filter_card_eq_filter_length, repsF, List.mem_toFinset]

/-- With amount zero, the Python slice `bins[-0:]` is the whole list, so all
bucket representatives are returned. -/
theorem select_relevant_zero (l : List Int) (o i : Int) :
    select_relevant l o i 0 = specRepsSorted l o i := by
  rw [select_relevant_eq_slice, pyTailSlice, if_pos rfl]

theorem mem_select_relevant_zero_iff (l : List Int) (o i x : Int) :
    x ∈ select_relevant l o i 0 ↔ x ∈ repsF l o i := by
  rw [select_relevant_zero, repsF, List.mem_toFinset]

theorem mem_of_mem_select_relevant (l : List Int) (o i : Int) (a : Nat) (x : Int)
    (hx : x ∈ select_relevant l o i a) : x ∈ l := by
  rw [select_relevant_eq_slice, pyTailSlice] at hx
  split at hx
  · exact ((mem_specRepsSorted l o i x).mp hx).1
  · exact ((mem_specRepsSorted l o i x).mp (List.mem_of_mem_drop hx)).1

theorem length_select_relevant (l : List Int) (o i : Int) (a : Nat)
    (ha : 1 ≤ a) (hle : a ≤ (specRepsSorted l o i).length) :
    (select_relevant l o i a).length = a := by
  rw [select_relevant_eq_slice, pyTailSlice, if_neg (by omega), List.length_drop]
  omega

theorem mem_grandfatherson_keep (l : List Int) (o : Int) (keeps : List (Int × Nat))
    (x : Int) :
    x ∈ (grandfatherson l o keeps).1 ↔
      ∃ ki ∈ keeps, x ∈ select_relevant l o ki.1 ki.2 := by
  have hgen : ∀ (ks : List (Int × Nat)) (init : Finset Int),
      (x ∈ ks.foldl
          (fun acc ki => acc ∪ (select_relevant l o ki.1 ki.2).toFinset) init ↔
        x ∈ init ∨ ∃ ki ∈ ks, x ∈ select_relevant l o ki.1 ki.2) := by
    intro ks
    induction ks with
    | nil => simp
    | cons k t ih =>
      intro init
      rw [List.foldl_cons, ih]
      simp only [Finset.mem_union, List.mem_toFinset, List.mem_cons]
      constructor
      · rintro ((h | h) | ⟨ki, hki, hsel⟩)
        · exact Or.inl h
        · exact Or.inr ⟨k, Or.inl rfl, h⟩
        · exact Or.inr ⟨ki, Or.inr hki, hsel⟩
      · rintro (h | ⟨ki, (rfl | hki), hsel⟩)
        · exact Or.inl (Or.inl h)
        · exact Or.inl (Or.inr hsel)
        · exact Or.inr ⟨ki, hki, hsel⟩
  rw [grandfatherson]
  simpa using hgen keeps ∅

theorem grandfatherson_keep_subset (l : List Int) (o : Int)
    (keeps : List (Int × Nat)) : (grandfatherson l o keeps).1 ⊆ l.toFinset := by
  intro x hx
  obtain ⟨ki, -, hsel⟩ := (mem_grandfatherson_keep l o keeps x).mp hx
  exact List.mem_toFinset.mpr (mem_of_mem_select_relevant l o ki.1 ki.2 x hsel)

theorem select_relevant_subset_reps (l : List Int) (o i : Int) (a : Nat) (x : Int)
    (hx : x ∈ select_relevant l o i a) : x ∈ specRepsSorted l o i := by
  rw [select_relevant_eq_slice, pyTailSlice] at hx
  split at hx
  · exact hx
  · exact List.mem_of_mem_drop hx

theorem sorted_lt_select_relevant (l : List Int) (o i : Int) (a : Nat) :
    (select_relevant l o i a).Sorted (· < ·) := by
  rw [select_relevant_eq_slice, pyTailSlice]
  split
  · exact sorted_lt_specRepsSorted l o i
  · exact List.Pairwise.sublist (List.drop_sublist _ _) (sorted_lt_specRepsSorted l o i)

/-- Floor-division bounds: for a positive interval, the bucket of `dt` is the
half-open interval `[o + i*q, o + i*(q+1))` where `q = bin_idx o i dt`. -/
theorem bin_idx_floor_bounds (o i dt : Int) (hi : 0 < i) :
    i * bin_idx o i dt ≤ dt - o ∧ dt - o < i * (bin_idx o i dt + 1) := by
  have hfd : (dt - o).fdiv i = (dt - o) / i := Int.fdiv_eq_ediv _ (le_of_lt hi)
  have hadd : i * ((dt - o) / i) + (dt - o) % i = dt - o := Int.ediv_add_emod _ _
  have hnn : 0 ≤ (dt - o) % i := Int.emod_nonneg _ (ne_of_gt hi)
  have hlt : (dt - o) % i < i := Int.emod_lt_of_pos _ hi
  rw [bin_idx, hfd]
  constructor
  · omega
  · have : i * ((dt - o) / i + 1) = i * ((dt - o) / i) + i := by ring
    omega

end Btrup

namespace Btrup

/-- C1: for every available list, origin and rule list, `grandfatherson`
returns a partition of the available set: `keep ∪ prune = available`,
`keep ∩ prune = ∅`; with zero rules, `keep = ∅` and `prune = available`. -/
theorem C1_grandfatherson_partition (l : List Int) (o : Int)
    (keeps : List (Int × Nat)) :
    (grandfatherson l o keeps).1 ∪ (grandfatherson l o keeps).2 = l.toFinset ∧
    (grandfatherson l o keeps).1 ∩ (grandfatherson l o keeps).2 = ∅ ∧
    (keeps = [] →
      (grandfatherson l o keeps).1 = ∅ ∧ (grandfatherson l o keeps).2 = l.toFinset) := by
  have hsnd : (grandfatherson l o keeps).2 = l.toFinset \ (grandfatherson l o keeps).1 :=
    rfl
  refine ⟨?_, ?_, ?_⟩
  · rw [hsnd]
    exact Finset.union_sdiff_of_subset (grandfatherson_keep_subset l o keeps)
  · rw [hsnd]
    exact Finset.inter_sdiff_self _ _
  · rintro rfl
    refine ⟨rfl, ?_⟩
    rw [hsnd]
    have h1 : (grandfatherson l o []).1 = ∅ := rfl
    rw [h1, Finset.sdiff_empty]

/-- Witness for C1 at a concrete input. -/
theorem C1_grandfatherson_partition_witness :
    (grandfatherson [3, 1] 0 []).1 ∪ (grandfatherson [3, 1] 0 []).2 =
        ([3, 1] : List Int).toFinset ∧
    (grandfatherson [3, 1] 0 []).1 ∩ (grandfatherson [3, 1] 0 []).2 = ∅ ∧
    (([] : List (Int × Nat)) = [] →
      (grandfatherson [3, 1] 0 []).1 = ∅ ∧
      (grandfatherson [3, 1] 0 []).2 = ([3, 1] : List Int).toFinset) :=
  C1_grandfatherson_partition [3, 1] 0 []

/-- C2: for a positive amount, `select_relevant` equals the spec-side
selection (bucket by floor division toward negative infinity, keep the oldest
instant per non-empty bucket, sort representatives ascending, return the last
`amount`, or all of them when fewer exist — never an error), the result is
strictly ascending, every selected instant is the oldest of its bucket, and
for a positive interval the bucket index is a genuine floor. -/
theorem C2_select_relevant_correct (l : List Int) (o i : Int) (a : Nat)
    (ha : 1 ≤ a) :
    select_relevant l o i a = selectRelevantSpec l o i a ∧
    (select_relevant l o i a).Sorted (· < ·) ∧
    (∀ x ∈ select_relevant l o i a,
      x ∈ l ∧ ∀ y ∈ l, bin_idx o i y = bin_idx o i x → x ≤ y) ∧
    ((specRepsSorted l o i).length ≤ a →
      select_relevant l o i a = specRepsSorted l o i) ∧
    (0 < i → ∀ dt : Int,
      i * bin_idx o i dt ≤ dt - o ∧ dt - o < i * (bin_idx o i dt + 1)) := by
  refine ⟨select_relevant_eq_spec l o i a ha, sorted_lt_select_relevant l o i a,
    ?_, ?_, fun hi dt => bin_idx_floor_bounds o i dt hi⟩
  · intro x hx
    exact (mem_specRepsSorted l o i x).mp (select_relevant_subset_reps l o i a x hx)
  · intro hlen
    rw [select_relevant_eq_slice, pyTailSlice, if_neg (by omega)]
    have : (specRepsSorted l o i).length - a = 0 := by omega
    rw [this, List.drop_zero]

/-- Witness for C2 at a concrete input. -/
theorem C2_select_relevant_correct_witness :
    select_relevant [995, 1005, 1015, 1017, 1041, 1045, 1052] 0 10 3 =
        selectRelevantSpec [995, 1005, 1015, 1017, 1041, 1045, 1052] 0 10 3 ∧
    (select_relevant [995, 1005, 1015, 1017, 1041, 1045, 1052] 0 10 3).Sorted (· < ·) ∧
    (∀ x ∈ select_relevant [995, 1005, 1015, 1017, 1041, 1045, 1052] 0 10 3,
      x ∈ [995, 1005, 1015, 1017, 1041, 1045, 1052] ∧
      ∀ y ∈ [995, 1005, 1015, 1017, 1041, 1045, 1052],
        bin_idx 0 10 y = bin_idx 0 10 x → x ≤ y) ∧
    ((specRepsSorted [995, 1005, 1015, 1017, 1041, 1045, 1052] 0 10).length ≤ 3 →
      select_relevant [995, 1005, 1015, 1017, 1041, 1045, 1052] 0 10 3 =
        specRepsSorted [995, 1005, 1015, 1017, 1041, 1045, 1052] 0 10) ∧
    ((0 : Int) < 10 → ∀ dt : Int,
      10 * bin_idx 0 10 dt ≤ dt - 0 ∧ dt - 0 < 10 * (bin_idx 0 10 dt + 1)) :=
  C2_select_relevant_correct [995, 1005, 1015, 1017, 1041, 1045, 1052] 0 10 3
    (by decide)

theorem accMin_ne_none (l : List Int) (h : l ≠ []) : accMin none l ≠ none := by
  cases l with
  | nil => exact absurd rfl h
  | cons a t =>
    have : accMin none (a :: t) = some (t.foldl min a) := by
      show List.foldl omin (omin none a) t = _
      exact accMin_some_eq t a
    rw [this]
    exact Option.some_ne_none _

theorem specRepsSorted_ne_nil (l : List Int) (o i : Int) (hl : l ≠ []) :
    specRepsSorted l o i ≠ [] := by
  obtain ⟨z, hz⟩ := List.exists_mem_of_ne_nil l hl
  have hzf : z ∈ l.filter (fun dt => decide (bin_idx o i dt = bin_idx o i z)) :=
    List.mem_filter.mpr ⟨hz, by simp⟩
  have hne : l.filter (fun dt => decide (bin_idx o i dt = bin_idx o i z)) ≠ [] :=
    List.ne_nil_of_mem hzf
  obtain ⟨v, hv⟩ :=
    Option.ne_none_iff_exists'.mp (accMin_ne_none _ hne)
  obtain ⟨hvmem, hvlb⟩ := (accMin_eq_some_iff _ _).mp hv
  rw [List.mem_filter] at hvmem
  have hvz : bin_idx o i v = bin_idx o i z := by simpa using hvmem.2
  have hvreps : v ∈ specRepsSorted l o i := by
    rw [mem_specRepsSorted]
    refine ⟨hvmem.1, fun y hy hby => ?_⟩
    exact hvlb y (List.mem_filter.mpr ⟨hy, by simp [hby, hvz]⟩)
  exact List.ne_nil_of_mem hvreps

theorem select_relevant_of_length_le (l : List Int) (o i : Int) (a : Nat)
    (ha : 1 ≤ a) (hlen : (specRepsSorted l o i).length ≤ a) :
    select_relevant l o i a = specRepsSorted l o i := by
  rw [select_relevant_eq_slice, pyTailSlice, if_neg (by omega)]
  have h0 : (specRepsSorted l o i).length - a = 0 := by omega
  rw [h0, List.drop_zero]

theorem length_specRepsSorted_le (l : List Int) (o i : Int) :
    (specRepsSorted l o i).length ≤ ((l.map (bin_idx o i)).dedup).length := by
  have hnd : ((specRepsSorted l o i).map (bin_idx o i)).Nodup := by
    refine (nodup_specRepsSorted l o i).map_on ?_
    intro x hx y hy hxy
    rw [mem_specRepsSorted] at hx hy
    have h1 : x ≤ y := hx.2 y hy.1 (by rw [hxy])
    have h2 : y ≤ x := hy.2 x hx.1 (by rw [hxy])
    exact le_antisymm h1 h2
  have hmemsub : ((specRepsSorted l o i).map (bin_idx o i)).toFinset ⊆
      (l.map (bin_idx o i)).toFinset := by
    intro b hb
    rw [List.mem_toFinset, List.mem_map] at hb
    obtain ⟨x, hx, rfl⟩ := hb
    rw [List.mem_toFinset, List.mem_map]
    exact ⟨x, ((mem_specRepsSorted l o i x).mp hx).1, rfl⟩
  have hcard := Finset.card_le_card hmemsub
  rw [List.card_toFinset, List.card_toFinset, hnd.dedup] at hcard
  rw [← List.length_map (specRepsSorted l o i) (bin_idx o i)]
  exact hcard

/-- C10: with amount 0, `select_relevant` returns the full ascending list of
per-bucket representatives rather than the empty list (the Python slice
`bins[-0:]` is the whole list), so a rule with amount 0 contributes every
bucket representative to the keep set instead of contributing nothing. -/
theorem C10_select_relevant_amount_zero (l : List Int) (o i : Int) :
    select_relevant l o i 0 = specRepsSorted l o i ∧
    (l ≠ [] → select_relevant l o i 0 ≠ []) ∧
    (∀ x ∈ specRepsSorted l o i, x ∈ (grandfatherson l o [(i, 0)]).1) := by
  refine ⟨select_relevant_zero l o i, ?_, ?_⟩
  · intro hl
    rw [select_relevant_zero]
    exact specRepsSorted_ne_nil l o i hl
  · intro x hx
    rw [mem_grandfatherson_keep]
    refine ⟨(i, 0), List.mem_cons_self _ _, ?_⟩
    rw [select_relevant_zero]
    exact hx

/-- Witness for C10 at a concrete input. -/
theorem C10_select_relevant_amount_zero_witness :
    select_relevant [0, 1, 25] 0 10 0 = specRepsSorted [0, 1, 25] 0 10 ∧
    (([0, 1, 25] : List Int) ≠ [] → select_relevant [0, 1, 25] 0 10 0 ≠ []) ∧
    (∀ x ∈ specRepsSorted [0, 1, 25] 0 10,
      x ∈ (grandfatherson [0, 1, 25] 0 [(10, 0)]).1) :=
  C10_select_relevant_amount_zero [0, 1, 25] 0 10

/-- C8 counterexample: with available instants 0 and 1, origin 0 and a single
rule (interval 10, amount 2), there is exactly one non-empty bucket, the
amount 2 exceeds it, yet `grandfatherson` keeps only the oldest instant 0 and
prunes 1 — not all available instants, and the prune set is not empty. -/
theorem C8_counterexample :
    ((([0, 1] : List Int).map (bin_idx 0 10)).dedup).length = 1 ∧
    (1 : Nat) < 2 ∧
    grandfatherson [0, 1] 0 [(10, 2)] = ({0}, {1}) ∧
    (grandfatherson [0, 1] 0 [(10, 2)]).1 ≠ ([0, 1] : List Int).toFinset ∧
    (grandfatherson [0, 1] 0 [(10, 2)]).2 ≠ ∅ := by decide

/-- C8 amended: if the amount of a single rule exceeds the number of distinct
non-empty buckets AND no two distinct available instants share a bucket, then
`grandfatherson` keeps all available instants and prunes nothing. -/
theorem C8_amended_keep_all (l : List Int) (o i : Int) (a : Nat)
    (hinj : ∀ x ∈ l, ∀ y ∈ l, bin_idx o i x = bin_idx o i y → x = y)
    (hcount : ((l.map (bin_idx o i)).dedup).length < a) :
    grandfatherson l o [(i, a)] = (l.toFinset, ∅) := by
  have ha : 1 ≤ a := by omega
  have hlen : (specRepsSorted l o i).length ≤ a :=
    le_trans (length_specRepsSorted_le l o i) (by omega)
  have hkeep : (grandfatherson l o [(i, a)]).1 = l.toFinset := by
    apply Finset.ext
    intro x
    rw [mem_grandfatherson_keep, List.mem_toFinset]
    constructor
    · rintro ⟨ki, hki, hsel⟩
      exact mem_of_mem_select_relevant l o ki.1 ki.2 x hsel
    · intro hx
      refine ⟨(i, a), List.mem_cons_self _ _, ?_⟩
      rw [select_relevant_of_length_le l o i a ha hlen, mem_specRepsSorted]
      exact ⟨hx, fun y hy hby => le_of_eq (hinj x hx y hy hby.symm)⟩
  have hsnd : (grandfatherson l o [(i, a)]).2 =
      l.toFinset \ (grandfatherson l o [(i, a)]).1 := rfl
  have h2 : (grandfatherson l o [(i, a)]).2 = ∅ := by
    rw [hsnd, hkeep, Finset.sdiff_self]
  calc grandfatherson l o [(i, a)]
      = ((grandfatherson l o [(i, a)]).1, (grandfatherson l o [(i, a)]).2) := rfl
    _ = (l.toFinset, ∅) := by rw [hkeep, h2]

/-- Witness for the amended C8 at a concrete input: instants 0 and 20 occupy
distinct buckets, amount 3 exceeds the 2 buckets, and everything is kept. -/
theorem C8_amended_keep_all_witness :
    (∀ x ∈ ([0, 20] : List Int), ∀ y ∈ ([0, 20] : List Int),
        bin_idx 0 10 x = bin_idx 0 10 y → x = y) ∧
    ((([0, 20] : List Int).map (bin_idx 0 10)).dedup).length < 3 ∧
    grandfatherson [0, 20] 0 [(10, 3)] = (([0, 20] : List Int).toFinset, ∅) :=
  ⟨by decide, by decide,
    C8_amended_keep_all [0, 20] 0 10 3 (by decide) (by decide)⟩

theorem fdiv_neg_neg (a b : Int) : (-a).fdiv (-b) = a.fdiv b := by
  have h1 : ∀ m : Nat, -Int.ofNat (m + 1) = Int.negSucc m := fun _ => rfl
  have h2 : ∀ n : Nat, -Int.negSucc n = Int.ofNat (n + 1) := fun _ => rfl
  have h0 : -Int.ofNat 0 = Int.ofNat 0 := rfl
  rcases a with m | m <;> rcases b with n | n
  · rcases m with - | m <;> rcases n with - | n
    · rfl
    · rfl
    · rw [h0, h1]; simp [Int.fdiv, Nat.div_zero]
    · rw [h1, h1]; rfl
  · rcases m with - | m
    · rw [h0, h2]; rfl
    · rw [h1, h2]; rfl
  · rcases n with - | n
    · rw [h2, h0]; simp [Int.fdiv, Nat.div_zero]
    · rw [h2, h1]; rfl
  · rw [h2, h2]; rfl

theorem fdiv_le_fdiv_of_le (c : Int) (hc : 0 < c) (a b : Int) (hab : a ≤ b) :
    a.fdiv c ≤ b.fdiv c := by
  rw [Int.fdiv_eq_ediv _ (le_of_lt hc), Int.fdiv_eq_ediv _ (le_of_lt hc)]
  exact Int.ediv_le_ediv hc hab

theorem fdiv_le_fdiv_of_le_neg (c : Int) (hc : c < 0) (a b : Int) (hab : a ≤ b) :
    b.fdiv c ≤ a.fdiv c := by
  rw [← fdiv_neg_neg b c, ← fdiv_neg_neg a c]
  exact fdiv_le_fdiv_of_le (-c) (by omega) _ _ (by omega)

/-- Buckets are order-convex: an instant lying between two instants of the
same bucket lies in that bucket too, for every interval (positive, negative,
or zero). -/
theorem bin_idx_convex (o i u v w : Int) (huv : u ≤ v) (hvw : v ≤ w)
    (h : bin_idx o i u = bin_idx o i w) : bin_idx o i v = bin_idx o i u := by
  rcases lt_trichotomy i 0 with hi | hi | hi
  · have h1 := fdiv_le_fdiv_of_le_neg i hi (u - o) (v - o) (by omega)
    have h2 := fdiv_le_fdiv_of_le_neg i hi (v - o) (w - o) (by omega)
    simp only [bin_idx] at h ⊢
    omega
  · subst hi
    rw [bin_idx, bin_idx, Int.fdiv_zero, Int.fdiv_zero]
  · have h1 := fdiv_le_fdiv_of_le i hi (u - o) (v - o) (by omega)
    have h2 := fdiv_le_fdiv_of_le i hi (v - o) (w - o) (by omega)
    simp only [bin_idx] at h ⊢
    omega

/-- The oldest available instant in the bucket of `y` (defaults to `y` when
the bucket is empty, which cannot happen for `y ∈ l`). -/
def bmin (l : List Int) (o i y : Int) : Int :=
  match accMin none (l.filter (fun z => decide (bin_idx o i z = bin_idx o i y))) with
  | some m => m
  | none => y

theorem bmin_spec (l : List Int) (o i y : Int) (hy : y ∈ l) :
    bmin l o i y ∈ l ∧ bin_idx o i (bmin l o i y) = bin_idx o i y ∧
    bmin l o i y ≤ y ∧
    ∀ z ∈ l, bin_idx o i z = bin_idx o i y → bmin l o i y ≤ z := by
  have hyf : y ∈ l.filter (fun z => decide (bin_idx o i z = bin_idx o i y)) :=
    List.mem_filter.mpr ⟨hy, by simp⟩
  obtain ⟨v, hv⟩ := Option.ne_none_iff_exists'.mp
    (accMin_ne_none _ (List.ne_nil_of_mem hyf))
  obtain ⟨hvmem, hvlb⟩ := (accMin_eq_some_iff _ _).mp hv
  rw [List.mem_filter] at hvmem
  have hb : bmin l o i y = v := by rw [bmin, hv]
  rw [hb]
  refine ⟨hvmem.1, by simpa using hvmem.2, hvlb y hyf, ?_⟩
  intro z hz hbz
  exact hvlb z (List.mem_filter.mpr ⟨hz, by simp [hbz]⟩)

theorem bmin_mem_repsF (l : List Int) (o i y : Int) (hy : y ∈ l) :
    bmin l o i y ∈ repsF l o i := by
  obtain ⟨h1, h2, h3, h4⟩ := bmin_spec l o i y hy
  rw [mem_repsF]
  refine ⟨h1, fun z hz hbz => ?_⟩
  exact h4 z hz (by rw [hbz, h2])

theorem repsF_eq_of_same_bucket (l : List Int) (o i x y : Int)
    (hx : x ∈ repsF l o i) (hy : y ∈ repsF l o i)
    (hb : bin_idx o i x = bin_idx o i y) : x = y := by
  rw [mem_repsF] at hx hy
  exact le_antisymm (hx.2 y hy.1 hb.symm) (hy.2 x hx.1 hb)

theorem nodup_select_relevant (l : List Int) (o i : Int) (a : Nat) :
    (select_relevant l o i a).Nodup := by
  rw [select_relevant_eq_slice, pyTailSlice]
  split
  · exact nodup_specRepsSorted l o i
  · exact List.Nodup.sublist (List.drop_sublist _ _) (nodup_specRepsSorted l o i)

theorem card_repsF (l : List Int) (o i : Int) :
    (repsF l o i).card = (specRepsSorted l o i).length := by
  rw [repsF, List.card_toFinset, (nodup_specRepsSorted l o i).dedup]

theorem mem_repsF_of_subset (l S : List Int) (o i : Int)
    (hsub2 : ∀ x ∈ S, x ∈ l) (x : Int) (hxl : x ∈ repsF l o i) (hxS : x ∈ S) :
    x ∈ repsF S o i := by
  rw [mem_repsF] at hxl ⊢
  exact ⟨hxS, fun z hz hb => hxl.2 z (hsub2 z hz) hb⟩

theorem mem_select_relevant_of_middle (l S : List Int) (o i : Int) (a : Nat)
    (hsub1 : ∀ x ∈ select_relevant l o i a, x ∈ S)
    (hsub2 : ∀ x ∈ S, x ∈ l) (x : Int) :
    x ∈ select_relevant S o i a ↔ x ∈ select_relevant l o i a := by
  constructor
  · -- An instant selected from the intermediate pool was already selected
    -- from the full pool.
    intro hz0
    have hzS : x ∈ S := mem_of_mem_select_relevant S o i a x hz0
    have hzl : x ∈ l := hsub2 x hzS
    have hzrepS : x ∈ repsF S o i := by
      rcases Nat.eq_zero_or_pos a with rfl | ha
      · exact (mem_select_relevant_zero_iff S o i x).mp hz0
      · exact ((mem_select_relevant_iff S o i a ha x).mp hz0).1
    obtain ⟨hmmem, hmbix, hmle, hmlb⟩ := bmin_spec l o i x hzl
    have hmsel : bmin l o i x ∈ select_relevant l o i a := by
      rcases Nat.eq_zero_or_pos a with rfl | ha
      · exact (mem_select_relevant_zero_iff l o i _).mpr (bmin_mem_repsF l o i x hzl)
      · rw [mem_select_relevant_iff l o i a ha]
        refine ⟨bmin_mem_repsF l o i x hzl, ?_⟩
        by_contra hge
        push_neg at hge
        have hzcard : ((repsF S o i).filter (fun y => x < y)).card < a :=
          ((mem_select_relevant_iff S o i a ha x).mp hz0).2
        -- The `a` most recent representatives of the full pool all survive
        -- into the intermediate pool and are all newer than `x`.
        have hTcard : (select_relevant l o i a).toFinset.card = a := by
          rw [List.card_toFinset, (nodup_select_relevant l o i a).dedup]
          refine length_select_relevant l o i a ha ?_
          calc a ≤ ((repsF l o i).filter (fun y => bmin l o i x < y)).card := hge
            _ ≤ (repsF l o i).card := Finset.card_le_card (Finset.filter_subset _ _)
            _ = (specRepsSorted l o i).length := card_repsF l o i
        have hTsub : (select_relevant l o i a).toFinset ⊆
            (repsF S o i).filter (fun y => x < y) := by
          intro w hw
          rw [List.mem_toFinset] at hw
          have hwS : w ∈ S := hsub1 w hw
          obtain ⟨hwrep, hwcard⟩ := (mem_select_relevant_iff l o i a ha w).mp hw
          rw [Finset.mem_filter]
          refine ⟨mem_repsF_of_subset l S o i hsub2 w hwrep hwS, ?_⟩
          have hmw : bmin l o i x < w := by
            rcases lt_trichotomy w (bmin l o i x) with hlt | heq | hgt
            · exfalso
              have hmono : (repsF l o i).filter (fun y => bmin l o i x < y) ⊆
                  (repsF l o i).filter (fun y => w < y) := by
                intro y hy
                rw [Finset.mem_filter] at hy ⊢
                exact ⟨hy.1, lt_trans hlt hy.2⟩
              have := le_trans hge (Finset.card_le_card hmono)
              omega
            · exfalso
              rw [heq] at hwcard
              omega
            · exact hgt
          by_contra hwx
          push_neg at hwx
          have hbw : bin_idx o i w = bin_idx o i (bmin l o i x) := by
            refine bin_idx_convex o i (bmin l o i x) w x (le_of_lt hmw) hwx ?_
            rw [hmbix]
          have : w = bmin l o i x :=
            repsF_eq_of_same_bucket l o i w (bmin l o i x) hwrep
              (bmin_mem_repsF l o i x hzl) hbw
          omega
        have := Finset.card_le_card hTsub
        omega
    have hmS : bmin l o i x ∈ S := hsub1 _ hmsel
    have hzm : x ≤ bmin l o i x := by
      rw [mem_repsF] at hzrepS
      exact hzrepS.2 _ hmS hmbix
    have : bmin l o i x = x := le_antisymm hmle hzm
    rw [← this]
    exact hmsel
  · -- An instant selected from the full pool is selected again from the
    -- intermediate pool.
    intro hx0
    have hxS : x ∈ S := hsub1 x hx0
    rcases Nat.eq_zero_or_pos a with rfl | ha
    · rw [mem_select_relevant_zero_iff] at hx0 ⊢
      exact mem_repsF_of_subset l S o i hsub2 x hx0 hxS
    · rw [mem_select_relevant_iff l o i a ha] at hx0
      rw [mem_select_relevant_iff S o i a ha]
      obtain ⟨hxrep, hxcard⟩ := hx0
      have hxrepS : x ∈ repsF S o i := mem_repsF_of_subset l S o i hsub2 x hxrep hxS
      refine ⟨hxrepS, ?_⟩
      have hinj : ((repsF S o i).filter (fun y => x < y)).card ≤
          ((repsF l o i).filter (fun y => x < y)).card := by
        refine Finset.card_le_card_of_injOn (fun y => bmin l o i y) ?_ ?_
        · intro y hy
          rw [Finset.mem_filter] at hy ⊢
          obtain ⟨hyrep, hxy⟩ := hy
          have hyS : y ∈ S := ((mem_repsF S o i y).mp hyrep).1
          have hyl : y ∈ l := hsub2 y hyS
          obtain ⟨hm1, hm2, hm3, hm4⟩ := bmin_spec l o i y hyl
          refine ⟨bmin_mem_repsF l o i y hyl, ?_⟩
          by_contra hle
          push_neg at hle
          have hbxy : bin_idx o i x = bin_idx o i (bmin l o i y) :=
            bin_idx_convex o i (bmin l o i y) x y hle (le_of_lt hxy) hm2
          have hbxy2 : bin_idx o i x = bin_idx o i y := by rw [hbxy, hm2]
          have : x = y := repsF_eq_of_same_bucket S o i x y hxrepS hyrep hbxy2
          omega
        · intro y1 hy1 y2 hy2 heq
          simp only [Finset.coe_filter, Set.mem_setOf_eq] at hy1 hy2
          have hy1l : y1 ∈ l := hsub2 y1 ((mem_repsF S o i y1).mp hy1.1).1
          have hy2l : y2 ∈ l := hsub2 y2 ((mem_repsF S o i y2).mp hy2.1).1
          have hb1 := (bmin_spec l o i y1 hy1l).2.1
          have hb2 := (bmin_spec l o i y2 hy2l).2.1
          have heq2 : bmin l o i y1 = bmin l o i y2 := heq
          have hby : bin_idx o i y1 = bin_idx o i y2 := by
            rw [← hb1, ← hb2, heq2]
          exact repsF_eq_of_same_bucket S o i y1 y2 hy1.1 hy2.1 hby
      omega

/-- If `S` lies between the selection from `l` and `l` itself, selecting from
`S` returns exactly the selection from `l`. -/
theorem select_relevant_middle (l S : List Int) (o i : Int) (a : Nat)
    (hsub1 : ∀ x ∈ select_relevant l o i a, x ∈ S)
    (hsub2 : ∀ x ∈ S, x ∈ l) :
    select_relevant S o i a = select_relevant l o i a := by
  refine List.eq_of_perm_of_sorted ?_
    ((sorted_lt_select_relevant S o i a).imp le_of_lt)
    ((sorted_lt_select_relevant l o i a).imp le_of_lt)
  rw [List.perm_ext_iff_of_nodup (nodup_select_relevant S o i a)
    (nodup_select_relevant l o i a)]
  exact mem_select_relevant_of_middle l S o i a hsub1 hsub2

/-- Policy-level idempotence: applying `grandfatherson` to its own keep set
(under the same origin and rules) keeps everything and prunes nothing. -/
theorem grandfatherson_idempotent (l : List Int) (o : Int)
    (rules : List (Int × Nat)) (keepL : List Int)
    (hk : keepL.toFinset = (grandfatherson l o rules).1) :
    grandfatherson keepL o rules = ((grandfatherson l o rules).1, ∅) := by
  have hsub2 : ∀ x ∈ keepL, x ∈ l := by
    intro x hx
    have hx2 : x ∈ (grandfatherson l o rules).1 := by
      rw [← hk]; exact List.mem_toFinset.mpr hx
    exact List.mem_toFinset.mp (grandfatherson_keep_subset l o rules hx2)
  have hsel : ∀ ki ∈ rules,
      select_relevant keepL o ki.1 ki.2 = select_relevant l o ki.1 ki.2 := by
    intro ki hki
    refine select_relevant_middle l keepL o ki.1 ki.2 ?_ hsub2
    intro x hx
    have hx2 : x ∈ (grandfatherson l o rules).1 :=
      (mem_grandfatherson_keep _ _ _ x).mpr ⟨ki, hki, hx⟩
    rw [← hk] at hx2
    exact List.mem_toFinset.mp hx2
  have hkeep : (grandfatherson keepL o rules).1 = (grandfatherson l o rules).1 := by
    apply Finset.ext
    intro x
    rw [mem_grandfatherson_keep, mem_grandfatherson_keep]
    constructor
    · rintro ⟨ki, hki, hx⟩
      exact ⟨ki, hki, by rw [← hsel ki hki]; exact hx⟩
    · rintro ⟨ki, hki, hx⟩
      exact ⟨ki, hki, by rw [hsel ki hki]; exact hx⟩
  have hprune : (grandfatherson keepL o rules).2 = ∅ := by
    have h2 : (grandfatherson keepL o rules).2 =
        keepL.toFinset \ (grandfatherson keepL o rules).1 := rfl
    rw [h2, hkeep, hk, Finset.sdiff_self]
  calc grandfatherson keepL o rules
      = ((grandfatherson keepL o rules).1, (grandfatherson keepL o rules).2) := rfl
    _ = ((grandfatherson l o rules).1, ∅) := by rw [hkeep, hprune]

/-- Outcome of invoking one external command: zero exit status, nonzero exit
status, or an invocation that raises an exception (e.g. a missing binary or
an OS error). -/
inductive Outcome
  | ok
  | fail
  | exn
deriving DecidableEq

/-- Exceptions surfaced by the `run` wrapper: `subprocess.CalledProcessError`
(only ever raised when `check=True` is passed) or any other exception. -/
inductive RunErr
  | calledProcess
  | other
deriving DecidableEq

/-- Model of `run(cmd, dry_run, ...)`: in dry-run mode the command is not
executed at all and `""` is returned; otherwise `subprocess.run` is invoked,
which raises `CalledProcessError` on a nonzero exit status only when
`check=True` is passed (the source never passes it: the call site uses
`subprocess.run(cmd, **kwargs)  # noqa: PLW1510`), and propagates any other
exception.  Returns the exception, when one is raised. -/
def runM (dryRun check : Bool) (out : Outcome) : Option RunErr :=
  if dryRun then none
  else
    match out with
    | .ok => none
    | .fail => if check then some .calledProcess else none
    | .exn => some .other

/-- Model of a hook loop `for command in hooks: run(shlex.split(command), dry_run)`:
commands are attempted in order; a nonzero exit is swallowed (`run` passes no
`check=True`); an invocation that raises stops the loop and propagates.
Returns the attempted commands and the propagated exception, if any. -/
def runHooks (dryRun : Bool) (outc : String → Outcome) :
    List String → List String × Option RunErr
  | [] => ([], none)
  | c :: rest =>
    match runM dryRun false (outc c) with
    | some e => ([c], some e)
    | none =>
      let r := runHooks dryRun outc rest
      (c :: r.1, r.2)

/-- Model of `create_btrfs_snapshot`: `try:` pre-hooks then the snapshot
command; `finally:` post-hooks.  An exception raised in the `finally` block
replaces the body's exception (Python semantics).  Returns the trace of
attempted commands (the snapshot command is "btrfs_snapshot") and the
surfaced exception, if any. -/
def create_btrfs_snapshot (pre post : List String) (snapOut : Outcome)
    (outc : String → Outcome) (dryRun : Bool) : List String × Option RunErr :=
  let preR := runHooks dryRun outc pre
  let body : List String × Option RunErr :=
    match preR.2 with
    | some e => (preR.1, some e)
    | none => (preR.1 ++ ["btrfs_snapshot"], runM dryRun false snapOut)
  let postR := runHooks dryRun outc post
  (body.1 ++ postR.1, match postR.2 with | some e => some e | none => body.2)

/-- Snapshot-phase actions: creating the new snapshot, deleting an old one. -/
inductive SAct
  | create
  | delete (dt : Int)
deriving DecidableEq

/-- Environment of the snapshot phase: hook command lists, the hook/command
outcome oracle, and the per-instant deletion outcome oracle. -/
structure BtrfsEnv where
  pre : List String
  post : List String
  hookOut : String → Outcome
  snapOut : Outcome
  deleteOut : Int → Outcome

/-- Python dict assignment `d[k] = v` on an insertion-ordered association
list. -/
def dictInsert (pool : List (Int × String)) (k : Int) (v : String) :
    List (Int × String) :=
  if (pool.map Prod.fst).contains k then
    pool.map (fun p => if p.1 = k then (k, v) else p)
  else pool ++ [(k, v)]

/-- Python dict deletion `del d[k]`. -/
def dictErase (pool : List (Int × String)) (k : Int) : List (Int × String) :=
  pool.filter (fun p => p.1 ≠ k)

/-- The deletion loop of `prune_old_btrfs_snapshots` over an already-sorted
list of instants: run the delete command, then `del snapshots[dt]`; an
exception aborts the remaining deletions and propagates. -/
def pruneSnapGo (env : BtrfsEnv) (dryRun : Bool) (pool : List (Int × String)) :
    List Int → List SAct × List (Int × String) × Option RunErr
  | [] => ([], pool, none)
  | dt :: rest =>
    match runM dryRun false (env.deleteOut dt) with
    | some e => ([SAct.delete dt], pool, some e)
    | none =>
      let r := pruneSnapGo env dryRun (dictErase pool dt) rest
      (SAct.delete dt :: r.1, r.2.1, r.2.2)

/-- Model of `prune_old_btrfs_snapshots`: iterate `sorted(prune_dts)` in
ascending order, deleting each snapshot. -/
def prune_old_btrfs_snapshots (env : BtrfsEnv) (dryRun : Bool)
    (prune_dts : Finset Int) (pool : List (Int × String)) :
    List SAct × List (Int × String) × Option RunErr :=
  pruneSnapGo env dryRun pool (prune_dts.sort (· ≤ ·))

/-- Model of `main_btrfs` (snapshot list/parse already performed, yielding
`pool0`; the freshly synthesized candidate name parses back to `newDt`).
Everything after listing — candidate synthesis, the grandfatherson decision,
snapshot creation, and pruning — is inside `if not args.skip_snapshot`. -/
def main_btrfs (pool0 : List (Int × String)) (origin : Int)
    (keeps : List (Int × Nat)) (skipSnapshot dryRun : Bool) (newDt : Int)
    (newName : String) (env : BtrfsEnv) :
    List SAct × List (Int × String) × Option RunErr :=
  if skipSnapshot then ([], pool0, none)
  else
    let pool1 := dictInsert pool0 newDt newName
    let gf := grandfatherson (pool1.map Prod.fst) origin keeps
    if newDt ∈ gf.1 then
      match (create_btrfs_snapshot env.pre env.post env.snapOut env.hookOut dryRun).2 with
      | some e => ([SAct.create], pool1, some e)
      | none =>
        let r := prune_old_btrfs_snapshots env dryRun gf.2 pool1
        (SAct.create :: r.1, r.2.1, r.2.2)
    else
      let r := prune_old_btrfs_snapshots env dryRun (gf.2.erase newDt)
        (dictErase pool1 newDt)
      (r.1, r.2.1, r.2.2)

/-- The instants deleted by a snapshot-phase trace, in order. -/
def deleteDts (tr : List SAct) : List Int :=
  tr.filterMap (fun a => match a with | SAct.delete dt => some dt | SAct.create => none)

/-- Model of `create_borg_archive` for one candidate.  Trace of steps:
- if the mount point directory exists, a defensive `umount` (with
  `check=False`), else `os.makedirs`;
- `mount`;
- unless dry-run, verify the configured sub-paths exist (a missing path
  raises `ValueError` — note this happens BEFORE the `try` block);
- `try:` `borg create`; `finally:` a settle `sleep`, `umount`, `os.rmdir`.
An exception raised by the final `umount` skips `rmdir` and replaces the
body's exception. -/
def create_borg_archive (isdirCur : Bool) (umountPreOut mountOut : Outcome)
    (pathsOk : Bool) (createOut umountFinOut : Outcome) (dryRun : Bool) :
    List String × Option RunErr :=
  let step0 : List String × Option RunErr :=
    if isdirCur then (["umount_pre"], runM dryRun false umountPreOut)
    else (["mkdir"], none)
  match step0 with
  | (t, some e) => (t, some e)
  | (t, none) =>
    match runM dryRun false mountOut with
    | some e => (t ++ ["mount"], some e)
    | none =>
      let t2 := t ++ ["mount"]
      if ¬dryRun ∧ ¬pathsOk then
        (t2, some .other)
      else
        let eCreate := runM dryRun false createOut
        let t3 := t2 ++ ["borg_create", "sleep", "umount_fin"]
        match runM dryRun false umountFinOut with
        | some e => (t3, some e)
        | none => (t3 ++ ["rmdir"], eCreate)

/-- Model of `check_borg_repository`: run `borg info` through `run` (which
does not pass `check=True`), catching only `subprocess.CalledProcessError`
to return `False`; any other exception propagates. -/
def check_borg_repository (infoOut : Outcome) : Except RunErr Bool :=
  match runM false false infoOut with
  | none => Except.ok true
  | some RunErr.calledProcess => Except.ok false
  | some RunErr.other => Except.error RunErr.other

/-- Archive-phase actions on a repository. -/
inductive RAct
  | info
  | list
  | create (dt : Int)
  | delete (dt : Int)
  | compact
deriving DecidableEq

/-- Per-candidate context for `create_borg_archive`. -/
structure CreateCtx where
  isdirCur : Bool
  umountPreOut : Outcome
  mountOut : Outcome
  pathsOk : Bool
  createOut : Outcome
  umountFinOut : Outcome

/-- Environment of the archive phase: outcome oracles for `borg info`,
`borg list`, the parsed archive pool per repository, the per-candidate
archive-creation context, and outcome oracles for `borg delete` and
`borg compact`. -/
structure BorgEnv where
  infoOut : String → Outcome
  listOut : String → Outcome
  archives : String → List (Int × String)
  createCtx : String → String → CreateCtx
  deleteOut : String → Int → Outcome
  compactOut : String → Outcome

/-- The exception surfaced by one `create_borg_archive` call. -/
def createErrOf (ctx : CreateCtx) (dryRun : Bool) : Option RunErr :=
  (create_borg_archive ctx.isdirCur ctx.umountPreOut ctx.mountOut ctx.pathsOk
    ctx.createOut ctx.umountFinOut dryRun).2

/-- The archive-creation loop of `main_borg`: for each kept snapshot, skip it
when an archive with its instant already exists, otherwise create one; an
exception aborts the loop and propagates. -/
def createLoop (repo : String) (env : BorgEnv) (dryRun : Bool)
    (archives : List (Int × String)) :
    List (Int × String) → List (String × RAct) × Option RunErr
  | [] => ([], none)
  | (dt, subvol) :: rest =>
    if (archives.map Prod.fst).contains dt then
      createLoop repo env dryRun archives rest
    else
      match createErrOf (env.createCtx repo subvol) dryRun with
      | some e => ([(repo, RAct.create dt)], some e)
      | none =>
        let r := createLoop repo env dryRun archives rest
        ((repo, RAct.create dt) :: r.1, r.2)

/-- The deletion loop of `prune_old_borg_archives` over an already-sorted
archive list: delete archives whose instant is not among the kept snapshots,
recording whether anything was removed. -/
def pruneGo (dryRun : Bool) (repo : String) (env : BorgEnv)
    (snapKeys : List Int) :
    List (Int × String) → List (String × RAct) × Bool × Option RunErr
  | [] => ([], false, none)
  | (dt, _) :: rest =>
    if snapKeys.contains dt then pruneGo dryRun repo env snapKeys rest
    else
      match runM dryRun false (env.deleteOut repo dt) with
      | some e => ([(repo, RAct.delete dt)], true, some e)
      | none =>
        let r := pruneGo dryRun repo env snapKeys rest
        ((repo, RAct.delete dt) :: r.1, true, r.2.2)

/-- Model of `prune_old_borg_archives`: iterate `sorted(archives.items())`
(ascending by instant), deleting each archive whose instant is not kept. -/
def prune_old_borg_archives (dryRun : Bool) (repo : String) (env : BorgEnv)
    (snapshots archives : List (Int × String)) :
    List (String × RAct) × Bool × Option RunErr :=
  pruneGo dryRun repo env (snapshots.map Prod.fst)
    (archives.insertionSort (fun p q => p.1 ≤ q.1))

/-- Processing of a single repository inside `main_borg`'s loop: probe with
`borg info` (`continue` when the probe returns False), list archives, create
missing archives, prune stale ones, and compact when something was removed. -/
def processRepo (snapsF : List (Int × String)) (env : BorgEnv) (dryRun : Bool)
    (repo : String) : List (String × RAct) × Option RunErr :=
  match check_borg_repository (env.infoOut repo) with
  | Except.error e => ([(repo, RAct.info)], some e)
  | Except.ok false => ([(repo, RAct.info)], none)
  | Except.ok true =>
    match runM false false (env.listOut repo) with
    | some e => ([(repo, RAct.info), (repo, RAct.list)], some e)
    | none =>
      let archives := env.archives repo
      let c := createLoop repo env dryRun archives snapsF
      match c.2 with
      | some e => ([(repo, RAct.info), (repo, RAct.list)] ++ c.1, some e)
      | none =>
        let p := prune_old_borg_archives dryRun repo env snapsF archives
        match p.2.2 with
        | some e => ([(repo, RAct.info), (repo, RAct.list)] ++ c.1 ++ p.1, some e)
        | none =>
          if p.2.1 then
            ([(repo, RAct.info), (repo, RAct.list)] ++ c.1 ++ p.1 ++
                [(repo, RAct.compact)],
              runM dryRun false (env.compactOut repo))
          else ([(repo, RAct.info), (repo, RAct.list)] ++ c.1 ++ p.1, none)

/-- The repository loop of `main_borg`: strictly sequential; an exception
escaping one repository's processing aborts the remaining repositories. -/
def repoLoop (snapsF : List (Int × String)) (env : BorgEnv) (dryRun : Bool) :
    List String → List (String × RAct) × Option RunErr
  | [] => ([], none)
  | repo :: rest =>
    let r := processRepo snapsF env dryRun repo
    match r.2 with
    | some e => (r.1, some e)
    | none =>
      let rr := repoLoop snapsF env dryRun rest
      (r.1 ++ rr.1, rr.2)

/-- Model of `main_borg`: compute the backup-eligible keep set; return
immediately (no repository action at all) when it is empty or when the most
recent snapshot instant is not in it; otherwise restrict the pool to the keep
set and process every repository. -/
def main_borg (snapshots : List (Int × String)) (origin : Int)
    (keeps : List (Int × Nat × Bool)) (repos : List String) (env : BorgEnv)
    (dryRun : Bool) : List (String × RAct) × Option RunErr :=
  let dts_keep := (grandfatherson (snapshots.map Prod.fst) origin
    ((keeps.filter (fun k => k.2.2)).map (fun k => (k.1, k.2.1)))).1
  if dts_keep = ∅ then ([], none)
  else
    match (snapshots.map Prod.fst).max? with
    | none => ([], none)
    | some last =>
      if last ∈ dts_keep then
        repoLoop (snapshots.filter (fun p => p.1 ∈ dts_keep)) env dryRun repos
      else ([], none)

/-- A borg environment where every command succeeds and repositories are
empty. -/
def envBorgOk : BorgEnv :=
  ⟨fun _ => Outcome.ok, fun _ => Outcome.ok, fun _ => [],
    fun _ _ => ⟨false, Outcome.ok, Outcome.ok, true, Outcome.ok, Outcome.ok⟩,
    fun _ _ => Outcome.ok, fun _ => Outcome.ok⟩

/-- A borg environment where `borg info` exits with a nonzero status on every
repository (the repository is unreachable) and everything else succeeds. -/
def envBorgUnreachable : BorgEnv :=
  ⟨fun _ => Outcome.fail, fun _ => Outcome.ok, fun _ => [],
    fun _ _ => ⟨false, Outcome.ok, Outcome.ok, true, Outcome.ok, Outcome.ok⟩,
    fun _ _ => Outcome.ok, fun _ => Outcome.ok⟩

/-- A btrfs environment with no hooks where every command succeeds. -/
def envBtrfsOk : BtrfsEnv :=
  ⟨[], [], fun _ => Outcome.ok, Outcome.ok, fun _ => Outcome.ok⟩

/-- C3: when the backup-eligible keep set is empty, or the maximum snapshot
instant is not in it, `main_borg` returns before the repository loop: the
archive phase performs zero actions (in particular zero create, delete and
compact calls) on every configured repository and raises nothing. -/
theorem C3_archive_guard_no_actions (snapshots : List (Int × String))
    (origin : Int) (keeps : List (Int × Nat × Bool)) (repos : List String)
    (env : BorgEnv) (dryRun : Bool)
    (h : (grandfatherson (snapshots.map Prod.fst) origin
        ((keeps.filter (fun k => k.2.2)).map (fun k => (k.1, k.2.1)))).1 = ∅ ∨
      ∃ last, (snapshots.map Prod.fst).max? = some last ∧
        last ∉ (grandfatherson (snapshots.map Prod.fst) origin
          ((keeps.filter (fun k => k.2.2)).map (fun k => (k.1, k.2.1)))).1) :
    main_borg snapshots origin keeps repos env dryRun = ([], none) := by
  rw [main_borg]
  by_cases hempty : (grandfatherson (snapshots.map Prod.fst) origin
      ((keeps.filter (fun k => k.2.2)).map (fun k => (k.1, k.2.1)))).1 = ∅
  · rw [if_pos hempty]
  · rw [if_neg hempty]
    rcases h with h | ⟨last, hmax, hnot⟩
    · exact absurd h hempty
    · rw [hmax]
      dsimp only
      rw [if_neg hnot]

/-- Witness for C3 at a concrete input: the only rule is not backup-eligible,
so the eligible keep set is empty and nothing happens. -/
theorem C3_archive_guard_no_actions_witness :
    ((grandfatherson (([((5 : Int), "s")]).map Prod.fst) 0
        ((([((1 : Int), 3, false)]).filter (fun k => k.2.2)).map
          (fun k => (k.1, k.2.1)))).1 = ∅ ∨
      ∃ last, (([((5 : Int), "s")]).map Prod.fst).max? = some last ∧
        last ∉ (grandfatherson (([((5 : Int), "s")]).map Prod.fst) 0
          ((([((1 : Int), 3, false)]).filter (fun k => k.2.2)).map
            (fun k => (k.1, k.2.1)))).1) ∧
    main_borg [(5, "s")] 0 [(1, 3, false)] ["r"] envBorgOk false = ([], none) :=
  ⟨Or.inl (by decide),
    C3_archive_guard_no_actions [(5, "s")] 0 [(1, 3, false)] ["r"] envBorgOk false
      (Or.inl (by decide))⟩

/-- C4 counterexample: when a configured source sub-path is missing
(verification failure, not dry-run), the `ValueError` is raised before the
`try` block, so the failure propagates with NO settle delay, NO unmount and
NO mount point removal — contradicting the claim that cleanup runs on every
exit path. -/
theorem C4_counterexample :
    create_borg_archive false Outcome.ok Outcome.ok false Outcome.ok Outcome.ok
        false = (["mkdir", "mount"], some RunErr.other) ∧
    "sleep" ∉ (create_borg_archive false Outcome.ok Outcome.ok false Outcome.ok
        Outcome.ok false).1 ∧
    "umount_fin" ∉ (create_borg_archive false Outcome.ok Outcome.ok false
        Outcome.ok Outcome.ok false).1 ∧
    "rmdir" ∉ (create_borg_archive false Outcome.ok Outcome.ok false Outcome.ok
        Outcome.ok false).1 := by decide

/-- C4 amended: provided the preliminary steps succeed and the sub-path
verification passes (or dry-run is active), the settle delay, the unmount and
the mount point removal run after archive creation on both remaining exit
paths — success and creation failure — and the creation failure propagates
only after this cleanup.  (On the verification-failure path the error
propagates before the `try` block and no cleanup happens.) -/
theorem C4_cleanup_after_creation (isdirCur : Bool)
    (umountPreOut mountOut : Outcome) (pathsOk : Bool)
    (createOut umountFinOut : Outcome) (dryRun : Bool)
    (hpre : runM dryRun false umountPreOut = none)
    (hmount : runM dryRun false mountOut = none)
    (hverify : ¬(¬dryRun ∧ ¬pathsOk))
    (humount : runM dryRun false umountFinOut = none) :
    ∃ t, create_borg_archive isdirCur umountPreOut mountOut pathsOk createOut
        umountFinOut dryRun =
      (t ++ ["sleep", "umount_fin", "rmdir"], runM dryRun false createOut) := by
  cases isdirCur
  · refine ⟨["mkdir", "mount", "borg_create"], ?_⟩
    simp only [create_borg_archive, if_false, hmount, if_neg hverify, humount]
    rfl
  · refine ⟨["umount_pre", "mount", "borg_create"], ?_⟩
    simp only [create_borg_archive, if_true, hpre, hmount, if_neg hverify, humount]
    rfl

/-- Witness for the amended C4 at a concrete input with a stale mount present
and a failing `borg create`. -/
theorem C4_cleanup_after_creation_witness :
    runM false false Outcome.ok = none ∧
    ¬(¬false ∧ ¬true) ∧
    (∃ t, create_borg_archive true Outcome.ok Outcome.ok true Outcome.exn
        Outcome.ok false =
      (t ++ ["sleep", "umount_fin", "rmdir"], runM false false Outcome.exn)) :=
  ⟨rfl, by simp,
    C4_cleanup_after_creation true Outcome.ok Outcome.ok true Outcome.exn
      Outcome.ok false rfl rfl (by simp) rfl⟩

theorem runHooks_no_exn (dryRun : Bool) (outc : String → Outcome)
    (hooks : List String) (h : ∀ c ∈ hooks, outc c ≠ Outcome.exn) :
    runHooks dryRun outc hooks = (hooks, none) := by
  induction hooks with
  | nil => rfl
  | cons c rest ih =>
    have hc : runM dryRun false (outc c) = none := by
      cases hdr : dryRun
      · cases ho : outc c
        · simp [runM, ho]
        · simp [runM, ho]
        · exact absurd ho (h c (List.mem_cons_self c rest))
      · simp [runM]
    simp only [runHooks, hc]
    rw [ih (fun d hd => h d (List.mem_cons_of_mem c hd))]

/-- C5 counterexample: a post-hook exiting with nonzero status is swallowed
(`run` is invoked without `check=True`), so its failure is never surfaced;
and a post-hook whose invocation raises aborts the remaining post-hooks, so
the error is not surfaced "after all post-hook commands have been
attempted". -/
theorem C5_counterexample :
    ((fun _ => Outcome.fail) "p1" = Outcome.fail ∧
      create_btrfs_snapshot [] ["p1"] Outcome.ok (fun _ => Outcome.fail) false =
        (["btrfs_snapshot", "p1"], none)) ∧
    create_btrfs_snapshot [] ["p1", "p2"] Outcome.ok
        (fun c => if c = "p1" then Outcome.exn else Outcome.ok) false =
      (["btrfs_snapshot", "p1"], some RunErr.other) := by
  refine ⟨⟨rfl, rfl⟩, rfl⟩

/-- C5 amended: provided no post-hook invocation itself raises, all
configured post-hook commands are attempted, in order, on every exit path of
snapshot creation — after successful creation, after failed creation, and
after a pre-hook failure — and the surfaced error is the body's error: a
nonzero exit status of a post-hook is swallowed, never surfaced. -/
theorem C5_post_hooks_every_path (pre post : List String) (snapOut : Outcome)
    (outc : String → Outcome) (dryRun : Bool)
    (hpost : ∀ c ∈ post, outc c ≠ Outcome.exn) :
    ∃ t, (create_btrfs_snapshot pre post snapOut outc dryRun).1 = t ++ post ∧
      (create_btrfs_snapshot pre post snapOut outc dryRun).2 =
        (match (runHooks dryRun outc pre).2 with
          | some e => some e
          | none => runM dryRun false snapOut) := by
  have hpostR : runHooks dryRun outc post = (post, none) :=
    runHooks_no_exn dryRun outc post hpost
  rw [create_btrfs_snapshot]
  cases hpre : (runHooks dryRun outc pre).2
  · refine ⟨(runHooks dryRun outc pre).1 ++ ["btrfs_snapshot"], ?_, ?_⟩
    · simp [hpre, hpostR]
    · simp [hpre, hpostR]
  · refine ⟨(runHooks dryRun outc pre).1, ?_, ?_⟩
    · simp [hpre, hpostR]
    · simp [hpre, hpostR]

/-- Witness for the amended C5 at a concrete input: one pre-hook and two
post-hooks, all succeeding, with a failing snapshot command — both post-hooks
are still attempted and the creation failure is surfaced. -/
theorem C5_post_hooks_every_path_witness :
    (∀ c ∈ ["q1", "q2"], (fun _ => Outcome.ok) c ≠ Outcome.exn) ∧
    (∃ t, (create_btrfs_snapshot ["p"] ["q1", "q2"] Outcome.exn
        (fun _ => Outcome.ok) false).1 = t ++ ["q1", "q2"] ∧
      (create_btrfs_snapshot ["p"] ["q1", "q2"] Outcome.exn
          (fun _ => Outcome.ok) false).2 =
        (match (runHooks false (fun _ => Outcome.ok) ["p"]).2 with
          | some e => some e
          | none => runM false false Outcome.exn)) :=
  ⟨fun c _ => by simp,
    C5_post_hooks_every_path ["p"] ["q1", "q2"] Outcome.exn (fun _ => Outcome.ok)
      false (fun c _ => by simp)⟩

/-- C6 evidence: `run` never passes `check=True`, so `subprocess.run` never
raises `CalledProcessError` and the `except` handler in
`check_borg_repository` is dead code.  A repository whose `borg info` exits
with a nonzero status (an unreachable repository) yields `True`: the
repository is NOT skipped — `main_borg` goes on to list it and create
archives in it — contradicting the claim that it is skipped before any
list/create/delete/compact action. -/
theorem C6_unreachable_repo_not_skipped :
    check_borg_repository Outcome.fail = Except.ok true ∧
    (∀ out : Outcome, check_borg_repository out ≠ Except.ok false) ∧
    main_borg [(0, "s")] 0 [(1, 1, true)] ["r"] envBorgUnreachable false =
      ([("r", RAct.info), ("r", RAct.list), ("r", RAct.create 0)], none) := by
  refine ⟨rfl, ?_, ?_⟩
  · intro out
    cases out <;> simp [check_borg_repository, runM]
  · rfl

theorem pruneSnapGo_all_ok (env : BtrfsEnv) (dryRun : Bool)
    (hdel : ∀ dt, runM dryRun false (env.deleteOut dt) = none) :
    ∀ (dts : List Int) (pool : List (Int × String)),
      (pruneSnapGo env dryRun pool dts).1 = dts.map SAct.delete ∧
      (pruneSnapGo env dryRun pool dts).2.2 = none := by
  intro dts
  induction dts with
  | nil => exact fun pool => ⟨rfl, rfl⟩
  | cons dt rest ih =>
    intro pool
    obtain ⟨h1, h2⟩ := ih (dictErase pool dt)
    simp only [pruneSnapGo, hdel dt]
    exact ⟨by rw [List.map_cons, h1], h2⟩

theorem deleteDts_map_delete (dts : List Int) :
    deleteDts (dts.map SAct.delete) = dts := by
  induction dts with
  | nil => rfl
  | cons dt rest ih =>
    simp only [deleteDts, List.map_cons, List.filterMap_cons] at ih ⊢
    rw [ih]

theorem deleteDts_create_cons (tr : List SAct) :
    deleteDts (SAct.create :: tr) = deleteDts tr := by
  simp [deleteDts, List.filterMap_cons]

/-- The prune set `main_btrfs` actually deletes when not skipping: the
grandfatherson prune set of the working pool (candidate inserted), minus the
candidate itself when the candidate was not kept (`prune_dts.discard(new_dt)`). -/
def btrfsPruneSet (pool0 : List (Int × String)) (origin : Int)
    (keeps : List (Int × Nat)) (newDt : Int) (newName : String) : Finset Int :=
  let gf := grandfatherson ((dictInsert pool0 newDt newName).map Prod.fst)
    origin keeps
  if newDt ∈ gf.1 then gf.2 else gf.2.erase newDt

/-- C7 counterexample: with the skip-new-snapshot flag set, `main_btrfs`
returns immediately — no grandfatherson decision and no pruning at all — even
though the pool contains an instant that the rules would prune.  The whole
decision-and-prune step, not just candidate synthesis, is conditional on the
flag. -/
theorem C7_counterexample :
    (grandfatherson (([((0 : Int), "a"), (1, "b")]).map Prod.fst) 0
        [((10 : Int), 1)]).2 = {1} ∧
    main_btrfs [(0, "a"), (1, "b")] 0 [(10, 1)] true false 99 "n" envBtrfsOk =
      ([], [(0, "a"), (1, "b")], none) :=
  ⟨by decide, rfl⟩

/-- C7 amended: when the skip flag is NOT set (and no command fails), each
instant of the computed prune set is deleted exactly once, in strictly
ascending instant order — the trace of deletions is precisely the sorted
listing of the prune set, hence independent of the order the provider listed
the pool; when the skip flag IS set, the snapshot phase performs no action
at all. -/
theorem C7_prune_ascending (pool0 : List (Int × String)) (origin : Int)
    (keeps : List (Int × Nat)) (dryRun : Bool) (newDt : Int) (newName : String)
    (env : BtrfsEnv)
    (hcr : (create_btrfs_snapshot env.pre env.post env.snapOut env.hookOut
      dryRun).2 = none)
    (hdel : ∀ dt, runM dryRun false (env.deleteOut dt) = none) :
    deleteDts (main_btrfs pool0 origin keeps false dryRun newDt newName env).1 =
      (btrfsPruneSet pool0 origin keeps newDt newName).sort (· ≤ ·) ∧
    (deleteDts
      (main_btrfs pool0 origin keeps false dryRun newDt newName env).1).Sorted
        (· < ·) ∧
    (deleteDts
      (main_btrfs pool0 origin keeps false dryRun newDt newName env).1).Nodup ∧
    (deleteDts
      (main_btrfs pool0 origin keeps false dryRun newDt newName env).1).toFinset =
      btrfsPruneSet pool0 origin keeps newDt newName ∧
    (main_btrfs pool0 origin keeps true dryRun newDt newName env).1 = [] := by
  have hmain :
      deleteDts (main_btrfs pool0 origin keeps false dryRun newDt newName env).1 =
        (btrfsPruneSet pool0 origin keeps newDt newName).sort (· ≤ ·) := by
    by_cases hmem : newDt ∈ (grandfatherson
        ((dictInsert pool0 newDt newName).map Prod.fst) origin keeps).1
    · simp only [main_btrfs, if_false, Bool.false_eq_true, if_pos hmem, hcr,
        prune_old_btrfs_snapshots, btrfsPruneSet]
      rw [(pruneSnapGo_all_ok env dryRun hdel _ _).1, deleteDts_create_cons,
        deleteDts_map_delete]
    · simp only [main_btrfs, if_false, Bool.false_eq_true, if_neg hmem, hcr,
        prune_old_btrfs_snapshots, btrfsPruneSet]
      rw [(pruneSnapGo_all_ok env dryRun hdel _ _).1, deleteDts_map_delete]
  refine ⟨hmain, ?_, ?_, ?_, rfl⟩
  · rw [hmain]
    exact Finset.sort_sorted_lt _
  · rw [hmain]
    exact Finset.sort_nodup _ _
  · rw [hmain]
    exact Finset.sort_toFinset _ _

/-- Witness for the amended C7 at a concrete input: the pool instants 0 and 1
collapse into one bucket with the kept candidate 25, and the deletions are
exactly [0, 1], ascending. -/
theorem C7_prune_ascending_witness :
    deleteDts (main_btrfs [(0, "a"), (1, "b")] 0 [(10, 1)] false false 25 "n"
        envBtrfsOk).1 =
      (btrfsPruneSet [(0, "a"), (1, "b")] 0 [(10, 1)] 25 "n").sort (· ≤ ·) ∧
    (deleteDts (main_btrfs [(0, "a"), (1, "b")] 0 [(10, 1)] false false 25 "n"
        envBtrfsOk).1).Sorted (· < ·) ∧
    (deleteDts (main_btrfs [(0, "a"), (1, "b")] 0 [(10, 1)] false false 25 "n"
        envBtrfsOk).1).Nodup ∧
    (deleteDts (main_btrfs [(0, "a"), (1, "b")] 0 [(10, 1)] false false 25 "n"
        envBtrfsOk).1).toFinset =
      btrfsPruneSet [(0, "a"), (1, "b")] 0 [(10, 1)] 25 "n" ∧
    (main_btrfs [(0, "a"), (1, "b")] 0 [(10, 1)] true false 25 "n"
        envBtrfsOk).1 = [] :=
  C7_prune_ascending [(0, "a"), (1, "b")] 0 [(10, 1)] false 25 "n" envBtrfsOk
    rfl (fun _ => rfl)

theorem check_borg_repository_ok_of_ne_exn (out : Outcome)
    (h : out ≠ Outcome.exn) : check_borg_repository out = Except.ok true := by
  cases out
  · rfl
  · rfl
  · exact absurd rfl h

theorem createLoop_all_present (repo : String) (env : BorgEnv) (dryRun : Bool)
    (archives : List (Int × String)) (snaps : List (Int × String))
    (h : ∀ p ∈ snaps, (archives.map Prod.fst).contains p.1 = true) :
    createLoop repo env dryRun archives snaps = ([], none) := by
  induction snaps with
  | nil => rfl
  | cons p rest ih =>
    obtain ⟨dt, subvol⟩ := p
    have hd : (archives.map Prod.fst).contains dt = true :=
      h (dt, subvol) (List.mem_cons_self _ _)
    simp only [createLoop, hd, if_true]
    exact ih (fun q hq => h q (List.mem_cons_of_mem _ hq))

theorem pruneGo_all_kept (dryRun : Bool) (repo : String) (env : BorgEnv)
    (snapKeys : List Int) (archs : List (Int × String))
    (h : ∀ p ∈ archs, snapKeys.contains p.1 = true) :
    pruneGo dryRun repo env snapKeys archs = ([], false, none) := by
  induction archs with
  | nil => rfl
  | cons p rest ih =>
    obtain ⟨dt, name⟩ := p
    have hd : snapKeys.contains dt = true := h (dt, name) (List.mem_cons_self _ _)
    simp only [pruneGo, hd, if_true]
    exact ih (fun q hq => h q (List.mem_cons_of_mem _ hq))

theorem processRepo_noop (snapsF : List (Int × String)) (env : BorgEnv)
    (dryRun : Bool) (repo : String)
    (hinfo : env.infoOut repo ≠ Outcome.exn)
    (hlist : env.listOut repo ≠ Outcome.exn)
    (hcreate : ∀ p ∈ snapsF, ((env.archives repo).map Prod.fst).contains p.1 = true)
    (hprune : ∀ p ∈ env.archives repo, (snapsF.map Prod.fst).contains p.1 = true) :
    processRepo snapsF env dryRun repo =
      ([(repo, RAct.info), (repo, RAct.list)], none) := by
  have hlistRun : runM false false (env.listOut repo) = none := by
    cases ho : env.listOut repo
    · rfl
    · rfl
    · exact absurd ho hlist
  have hprune2 : ∀ p ∈ (env.archives repo).insertionSort (fun p q => p.1 ≤ q.1),
      (snapsF.map Prod.fst).contains p.1 = true := by
    intro p hp
    exact hprune p ((List.perm_insertionSort _ _).mem_iff.mp hp)
  simp only [processRepo, check_borg_repository_ok_of_ne_exn _ hinfo, hlistRun,
    createLoop_all_present repo env dryRun _ _ hcreate,
    prune_old_borg_archives,
    pruneGo_all_kept dryRun repo env _ _ hprune2]
  simp

theorem repoLoop_noop (snapsF : List (Int × String)) (env : BorgEnv)
    (dryRun : Bool) (repos : List String)
    (h : ∀ r ∈ repos, env.infoOut r ≠ Outcome.exn ∧
      env.listOut r ≠ Outcome.exn ∧
      (∀ p ∈ snapsF, ((env.archives r).map Prod.fst).contains p.1 = true) ∧
      (∀ p ∈ env.archives r, (snapsF.map Prod.fst).contains p.1 = true)) :
    (repoLoop snapsF env dryRun repos).2 = none ∧
    ∀ e ∈ (repoLoop snapsF env dryRun repos).1,
      e.2 = RAct.info ∨ e.2 = RAct.list := by
  induction repos with
  | nil => exact ⟨rfl, by simp [repoLoop]⟩
  | cons repo rest ih =>
    obtain ⟨h1, h2, h3, h4⟩ := h repo (List.mem_cons_self _ _)
    have hpr := processRepo_noop snapsF env dryRun repo h1 h2 h3 h4
    obtain ⟨ih1, ih2⟩ := ih (fun r hr => h r (List.mem_cons_of_mem _ hr))
    constructor
    · simp only [repoLoop, hpr]
      exact ih1
    · simp only [repoLoop, hpr]
      intro e he
      rcases List.mem_append.mp he with he | he
      · rcases List.mem_cons.mp he with rfl | he
        · exact Or.inl rfl
        · rcases List.mem_cons.mp he with rfl | he
          · exact Or.inr rfl
          · cases he
      · exact ih2 e he

theorem main_borg_noop (snapshots : List (Int × String)) (origin : Int)
    (keeps : List (Int × Nat × Bool)) (repos : List String) (env : BorgEnv)
    (dryRun : Bool)
    (h : ∀ r ∈ repos, env.infoOut r ≠ Outcome.exn ∧
      env.listOut r ≠ Outcome.exn ∧
      (∀ p ∈ snapshots.filter (fun p => p.1 ∈ (grandfatherson
          (snapshots.map Prod.fst) origin ((keeps.filter (fun k => k.2.2)).map
            (fun k => (k.1, k.2.1)))).1),
        ((env.archives r).map Prod.fst).contains p.1 = true) ∧
      (∀ p ∈ env.archives r,
        ((snapshots.filter (fun p => p.1 ∈ (grandfatherson
          (snapshots.map Prod.fst) origin ((keeps.filter (fun k => k.2.2)).map
            (fun k => (k.1, k.2.1)))).1)).map Prod.fst).contains p.1 = true)) :
    (main_borg snapshots origin keeps repos env dryRun).2 = none ∧
    ∀ e ∈ (main_borg snapshots origin keeps repos env dryRun).1,
      e.2 = RAct.info ∨ e.2 = RAct.list := by
  rw [main_borg]
  by_cases hempty : (grandfatherson (snapshots.map Prod.fst) origin
      ((keeps.filter (fun k => k.2.2)).map (fun k => (k.1, k.2.1)))).1 = ∅
  · rw [if_pos hempty]
    exact ⟨rfl, by simp⟩
  · rw [if_neg hempty]
    cases hmax : (snapshots.map Prod.fst).max? with
    | none => exact ⟨rfl, by simp⟩
    | some last =>
      dsimp only
      by_cases hlast : last ∈ (grandfatherson (snapshots.map Prod.fst) origin
          ((keeps.filter (fun k => k.2.2)).map (fun k => (k.1, k.2.1)))).1
      · rw [if_pos hlast]
        exact repoLoop_noop _ env dryRun repos h
      · rw [if_neg hlast]
        exact ⟨rfl, by simp⟩

/-- A borg environment whose single-archive repositories already hold exactly
the candidate with instant 0 (the state a first run leaves behind). -/
def envBorgSynced : BorgEnv :=
  ⟨fun _ => Outcome.ok, fun _ => Outcome.ok, fun _ => [((0 : Int), "backup.0")],
    fun _ _ => ⟨false, Outcome.ok, Outcome.ok, true, Outcome.ok, Outcome.ok⟩,
    fun _ _ => Outcome.ok, fun _ => Outcome.ok⟩

/-- C9: the orchestration is idempotent.  (1) At the policy level,
`grandfatherson` applied to its own keep set (same origin and rules) returns
the keep set unchanged and an empty prune set.  (2) A second snapshot-phase
run that adds no new snapshot (skip flag) creates and deletes nothing and
leaves the pool unchanged.  (3) A second archive-phase run in which every
repository already holds exactly the candidate archives performs only the
info probe and the listing: no archive is created, deleted, or compacted. -/
theorem C9_second_run_is_noop :
    (∀ (l : List Int) (o : Int) (rules : List (Int × Nat)) (keepL : List Int),
      keepL.toFinset = (grandfatherson l o rules).1 →
      grandfatherson keepL o rules = ((grandfatherson l o rules).1, ∅)) ∧
    (∀ (pool0 : List (Int × String)) (origin : Int) (keeps : List (Int × Nat))
        (dryRun : Bool) (newDt : Int) (newName : String) (env : BtrfsEnv),
      main_btrfs pool0 origin keeps true dryRun newDt newName env =
        ([], pool0, none)) ∧
    (∀ (snapshots : List (Int × String)) (origin : Int)
        (keeps : List (Int × Nat × Bool)) (repos : List String) (env : BorgEnv)
        (dryRun : Bool),
      (∀ r ∈ repos, env.infoOut r ≠ Outcome.exn ∧
        env.listOut r ≠ Outcome.exn ∧
        (∀ p ∈ snapshots.filter (fun p => p.1 ∈ (grandfatherson
            (snapshots.map Prod.fst) origin ((keeps.filter (fun k => k.2.2)).map
              (fun k => (k.1, k.2.1)))).1),
          ((env.archives r).map Prod.fst).contains p.1 = true) ∧
        (∀ p ∈ env.archives r,
          ((snapshots.filter (fun p => p.1 ∈ (grandfatherson
            (snapshots.map Prod.fst) origin ((keeps.filter (fun k => k.2.2)).map
              (fun k => (k.1, k.2.1)))).1)).map Prod.fst).contains p.1 = true)) →
      (main_borg snapshots origin keeps repos env dryRun).2 = none ∧
      ∀ e ∈ (main_borg snapshots origin keeps repos env dryRun).1,
        e.2 = RAct.info ∨ e.2 = RAct.list) :=
  ⟨grandfatherson_idempotent, fun _ _ _ _ _ _ _ => rfl, main_borg_noop⟩

/-- Witness for C9 at concrete inputs. -/
theorem C9_second_run_is_noop_witness :
    (([1, 2, 3] : List Int).toFinset =
        (grandfatherson [0, 1, 2, 3] 0 [(1, 3), (2, 1)]).1 ∧
      grandfatherson [1, 2, 3] 0 [(1, 3), (2, 1)] =
        ((grandfatherson [0, 1, 2, 3] 0 [(1, 3), (2, 1)]).1, ∅)) ∧
    main_btrfs [(0, "a")] 0 [(10, 1)] true false 99 "n" envBtrfsOk =
      ([], [(0, "a")], none) ∧
    ((main_borg [(0, "s")] 0 [(1, 1, true)] ["r"] envBorgSynced false).2 = none ∧
      ∀ e ∈ (main_borg [(0, "s")] 0 [(1, 1, true)] ["r"] envBorgSynced false).1,
        e.2 = RAct.info ∨ e.2 = RAct.list) :=
  ⟨⟨by decide,
      C9_second_run_is_noop.1 [0, 1, 2, 3] 0 [(1, 3), (2, 1)] [1, 2, 3]
        (by decide)⟩,
    C9_second_run_is_noop.2.1 [(0, "a")] 0 [(10, 1)] false 99 "n" envBtrfsOk,
    C9_second_run_is_noop.2.2 [(0, "s")] 0 [(1, 1, true)] ["r"] envBorgSynced
      false (by decide)⟩

-- test_grandfatherson_tenminutely: origin 2022-05-05 00:00, 10-minute bins.
example :
    select_relevant [995, 1005, 1015, 1017, 1041, 1045, 1052] 0 10 3 =
      [1015, 1041, 1052] := by decide

example :
    grandfatherson [995, 1005, 1015, 1017, 1041, 1045, 1052] 0 [(10, 3)] =
      ({1015, 1041, 1052}, {995, 1005, 1017, 1045}) := by decide

-- test_grandfatherson_empty: zero rules keep nothing.
example : grandfatherson [5, 4, 2, 1] 0 [] = (∅, {5, 4, 2, 1}) := by decide

end Btrup
